import Mathlib

/-
Verification of the `algorithms` repository: a shallow embedding of the
binary search tree in `src/binarytree.rs` and the stack in `src/stack.rs`.
The Rust code mutates nodes in place; here each operation takes the tree
(or stack) and returns the operation result together with the updated
structure.  `Result<T, T>` becomes `Except α α`, `Option<Box<...>>`
becomes `Option` of the inductive type.
-/

namespace Algorithms

/-- The `BinaryTree<T>` struct: an optional value and two optional owned
child subtrees. -/
inductive BinaryTree (α : Type) : Type where
  | mk (val : Option α) (left : Option (BinaryTree α)) (right : Option (BinaryTree α)) :
      BinaryTree α

namespace BinaryTree

variable {α : Type}

/-- Field accessor for `val`. -/
def val : BinaryTree α → Option α
  | .mk v _ _ => v

/-- Field accessor for `left`. -/
def left : BinaryTree α → Option (BinaryTree α)
  | .mk _ l _ => l

/-- Field accessor for `right`. -/
def right : BinaryTree α → Option (BinaryTree α)
  | .mk _ _ r => r

/-- `BinaryTree::new()`: the empty tree. -/
def new : BinaryTree α := .mk none none none

/-- Rust's `Ord::cmp` for a total order: `Less` / `Greater` / `Equal`. -/
def cmp [LinearOrder α] (a b : α) : Ordering :=
  if a < b then Ordering.lt else if b < a then Ordering.gt else Ordering.eq

/-- `BinaryTree::prune`: delete a child whose `val` is `None`
(the source checks only the child's `val`, not its children). -/
def prune : BinaryTree α → BinaryTree α
  | .mk v l r =>
    let del_left := match l with
      | none => false
      | some c => (val c).isNone
    let del_right := match r with
      | none => false
      | some c => (val c).isNone
    .mk v (if del_left then none else l) (if del_right then none else r)

/-- `BinaryTree::collapse_rightmost`: take the value out of the rightmost
node (descending through `right`), prune on the way back up, and return
the taken value. -/
def collapse_rightmost : BinaryTree α → Option α × BinaryTree α
  | .mk v l none => (v, prune (.mk none l none))
  | .mk v l (some c) =>
    match collapse_rightmost c with
    | (res, c2) => (res, prune (.mk v l (some c2)))

/-- `BinaryTree::insert`: store at an empty node, recurse by comparison,
fail with the stored value on `Equal`. -/
def insert [LinearOrder α] : BinaryTree α → α → Except α α × BinaryTree α
  | .mk none l r, x => (.ok x, .mk (some x) l r)
  | .mk (some w) l r, x =>
    match cmp x w with
    | .eq => (.error w, .mk (some w) l r)
    | .lt =>
      match l with
      | none => (.ok x, .mk (some w) (some (.mk (some x) none none)) r)
      | some c =>
        match insert c x with
        | (.error e, c2) => (.error e, .mk (some w) (some c2) r)
        | (.ok _, c2) => (.ok x, .mk (some w) (some c2) r)
    | .gt =>
      match r with
      | none => (.ok x, .mk (some w) l (some (.mk (some x) none none)))
      | some c =>
        match insert c x with
        | (.error e, c2) => (.error e, .mk (some w) l (some c2))
        | (.ok _, c2) => (.ok x, .mk (some w) l (some c2))

/-- `BinaryTree::remove`: fail at an empty node, recurse by comparison
(then prune), and on `Equal` reshape according to the three child cases
(then prune).  The one-child case copies the child's fields into the node,
which is the child itself; the two-children case promotes the value
extracted by `collapse_rightmost` from the left subtree. -/
def remove [LinearOrder α] : BinaryTree α → α → Except α α × BinaryTree α
  | .mk none l r, x => (.error x, .mk none l r)
  | .mk (some w) l r, x =>
    match cmp x w with
    | .lt =>
      match l with
      | none => (.error x, prune (.mk (some w) none r))
      | some c =>
        match remove c x with
        | (res, c2) => (res, prune (.mk (some w) (some c2) r))
    | .gt =>
      match r with
      | none => (.error x, prune (.mk (some w) l none))
      | some c =>
        match remove c x with
        | (res, c2) => (res, prune (.mk (some w) l (some c2)))
    | .eq =>
      match l, r with
      | none, none => (.ok w, prune (.mk none none none))
      | none, some c => (.ok w, prune c)
      | some c, none => (.ok w, prune c)
      | some c, some rt =>
        match collapse_rightmost c with
        | (vO, c2) => (.ok w, prune (.mk vO (some c2) (some rt)))

/-- In-order traversal: left values, node value, right values. -/
def toList : BinaryTree α → List α
  | .mk v l r =>
    (match l with | none => [] | some c => toList c)
      ++ (match v with | none => [] | some x => [x])
      ++ (match r with | none => [] | some c => toList c)

/-- Number of occupied nodes (nodes whose `val` is present). -/
def size : BinaryTree α → Nat
  | .mk v l r =>
    (match v with | none => 0 | some _ => 1)
      + (match l with | none => 0 | some c => size c)
      + (match r with | none => 0 | some c => size c)

/-- The root holds a value. -/
def occupiedRoot : BinaryTree α → Bool
  | .mk v _ _ => v.isSome

/-- Every present child reference, at any depth, points to an occupied
node. -/
def wfChildren : BinaryTree α → Bool
  | .mk _ l r =>
    (match l with | none => true | some c => occupiedRoot c && wfChildren c)
      && (match r with | none => true | some c => occupiedRoot c && wfChildren c)

/-- The structural invariant of reachable trees: every present child is
occupied (so the only possibly-valueless node is the root), and a
valueless root has no children. -/
def wf (t : BinaryTree α) : Bool :=
  wfChildren t && (occupiedRoot t || ((left t).isNone && (right t).isNone))

/-- No hollow node anywhere: a node with an absent value has no children.
(Weaker than `wf`: it allows an empty leaf to be retained as a child.) -/
def noHollowNode : BinaryTree α → Bool
  | .mk v l r =>
    (v.isSome || (l.isNone && r.isNone))
      && (match l with | none => true | some c => noHollowNode c)
      && (match r with | none => true | some c => noHollowNode c)

/-- Every value stored in the tree satisfies `p`. -/
def allB (p : α → Bool) : BinaryTree α → Bool
  | .mk v l r =>
    (match v with | none => true | some x => p x)
      && (match l with | none => true | some c => allB p c)
      && (match r with | none => true | some c => allB p c)

/-- BST ordering: at every node holding `x`, all values in `left` are
below `x` and all values in `right` are above `x`. -/
def orderedB [LinearOrder α] : BinaryTree α → Bool
  | .mk v l r =>
    (match l with
      | none => true
      | some c =>
        orderedB c && (match v with | none => true | some x => allB (fun y => decide (y < x)) c))
      && (match r with
        | none => true
        | some c =>
          orderedB c && (match v with | none => true | some x => allB (fun y => decide (x < y)) c))

/-- Fold a sequence of inserts over a tree, keeping only the tree. -/
def insertAll [LinearOrder α] (t : BinaryTree α) (vs : List α) : BinaryTree α :=
  vs.foldl (fun s x => (insert s x).2) t

/-- The amended pruning rule on one child slot: the child is dropped
exactly when it exists and its `val` is absent, its own children
notwithstanding. -/
def pruneChildSpec : Option (BinaryTree α) → Option (BinaryTree α)
  | none => none
  | some c => if (val c).isNone then none else some c

/-- `insert` with every `unwrap()` of the source modelled as an `Option`
bind (`none` = panic): line 30's `self.val.as_ref().unwrap()` and line
33's `self.val.unwrap()`, each guarded in the source by the `is_none`
fast path. -/
def insertChecked [LinearOrder α] : BinaryTree α → α → Option (Except α α × BinaryTree α)
  | .mk v l r, x =>
    if v.isNone then some (.ok x, .mk (some x) l r)
    else do
      let w ← v
      match cmp x w with
      | .eq => do
        let w2 ← v
        pure (.error w2, .mk v l r)
      | .lt =>
        match l with
        | none => pure (.ok x, .mk v (some (.mk (some x) none none)) r)
        | some c => do
          let rc ← insertChecked c x
          match rc with
          | (.error e, c2) => pure (.error e, .mk v (some c2) r)
          | (.ok _, c2) => pure (.ok x, .mk v (some c2) r)
      | .gt =>
        match r with
        | none => pure (.ok x, .mk v l (some (.mk (some x) none none)))
        | some c => do
          let rc ← insertChecked c x
          match rc with
          | (.error e, c2) => pure (.error e, .mk v l (some c2))
          | (.ok _, c2) => pure (.ok x, .mk v l (some c2))

/-- `remove` with every `unwrap()` of the source modelled as an `Option`
bind (`none` = panic): line 60's `self.val.as_ref().unwrap()` and line
76's `self.val.take().unwrap()`, both guarded by the `is_none` fast path.
`collapse_rightmost` and `prune` contain no `unwrap` at all. -/
def removeChecked [LinearOrder α] : BinaryTree α → α → Option (Except α α × BinaryTree α)
  | .mk v l r, x =>
    if v.isNone then some (.error x, .mk v l r)
    else do
      let w ← v
      let p ←
        match cmp x w with
        | .lt =>
          match l with
          | none => pure ((Except.error x : Except α α), BinaryTree.mk v none r)
          | some c => do
            let (res, c2) ← removeChecked c x
            pure (res, BinaryTree.mk v (some c2) r)
        | .gt =>
          match r with
          | none => pure ((Except.error x : Except α α), BinaryTree.mk v l none)
          | some c => do
            let (res, c2) ← removeChecked c x
            pure (res, BinaryTree.mk v l (some c2))
        | .eq => do
          let w2 ← v
          match l, r with
          | none, none => pure ((Except.ok w2 : Except α α), BinaryTree.mk none none none)
          | none, some c => pure (Except.ok w2, c)
          | some c, none => pure (Except.ok w2, c)
          | some c, some rt =>
            match collapse_rightmost c with
            | (vO, c2) => pure (Except.ok w2, BinaryTree.mk vO (some c2) (some rt))
      pure (p.1, prune p.2)

/-! Small helpers over the optional fields, used to state compositional
unfolding lemmas for the recursive functions above. -/

/-- The list of an optional value. -/
def valList : Option α → List α
  | none => []
  | some x => [x]

/-- Occupied-node count contributed by an optional value. -/
def valCount : Option α → Nat
  | none => 0
  | some _ => 1

/-- `toList` through an optional child. -/
def toListO : Option (BinaryTree α) → List α
  | none => []
  | some c => toList c

/-- `size` through an optional child. -/
def sizeO : Option (BinaryTree α) → Nat
  | none => 0
  | some c => size c

/-- `p` on an optional value. -/
def allV (p : α → Bool) : Option α → Bool
  | none => true
  | some x => p x

/-- `allB` through an optional child. -/
def allBO (p : α → Bool) : Option (BinaryTree α) → Bool
  | none => true
  | some c => allB p c

/-- Well-formedness of an optional child: if present, occupied and with
well-formed children of its own. -/
def wfO : Option (BinaryTree α) → Bool
  | none => true
  | some c => occupiedRoot c && wfChildren c

/-- `noHollowNode` through an optional child. -/
def nhO : Option (BinaryTree α) → Bool
  | none => true
  | some c => noHollowNode c

/-- `orderedB` through an optional child. -/
def ordO [LinearOrder α] : Option (BinaryTree α) → Bool
  | none => true
  | some c => orderedB c

/-- The left-bound part of the ordering invariant at one node. -/
def bndL [LinearOrder α] : Option α → Option (BinaryTree α) → Bool
  | _, none => true
  | none, some _ => true
  | some x, some c => allB (fun y => decide (y < x)) c

/-- The right-bound part of the ordering invariant at one node. -/
def bndR [LinearOrder α] : Option α → Option (BinaryTree α) → Bool
  | _, none => true
  | none, some _ => true
  | some x, some c => allB (fun y => decide (x < y)) c

/-- The tree grown by inserting 5, 3, 1, 8 into a new tree: root 5 with
left subtree rooted at 3 (own left child 1) and right child 8. -/
def sampleTree : BinaryTree Int := insertAll new [5, 3, 1, 8]

/-- A tree with no hollow node in which an empty leaf is retained as a
child: root 5, left child an empty leaf, right child 8. -/
def hollowStartTree : BinaryTree Int :=
  .mk (some 5) (some (.mk none none none)) (some (.mk (some 8) none none))

/-- A valueless child that still has a grandchild holding 1. -/
def hollowChild : BinaryTree Int := .mk none (some (.mk (some 1) none none)) none

/-- A node whose left child is `hollowChild`: valueless but not fully
empty. -/
def pruneCounterTree : BinaryTree Int := .mk (some 5) (some hollowChild) none

/-- A small well-formed ordered tree holding 1, 3, 5, used for witnesses. -/
def smallTree : BinaryTree Int := insertAll new [3, 1, 5]

end BinaryTree

/-- A node of the singly linked stack: one value and an optional owned
`next` node. -/
inductive StackNode (α : Type) : Type where
  | mk (val : α) (next : Option (StackNode α)) : StackNode α

namespace StackNode

variable {α : Type}

/-- `StackNode::new`: a node with no successor. -/
def new (v : α) : StackNode α := .mk v none

/-- The chain of values hanging off a node, top first. -/
def toList : StackNode α → List α
  | .mk v next => v :: (match next with | none => [] | some n => toList n)

end StackNode

/-- The `Stack<T>` struct: an optional owned top node. -/
structure Stack (α : Type) : Type where
  top : Option (StackNode α)

namespace Stack

variable {α : Type}

/-- `Stack::new()`: the empty stack. -/
def new : Stack α := ⟨none⟩

/-- `Stack::push`: the new node's `next` is the previous top. -/
def push (s : Stack α) (v : α) : Stack α :=
  ⟨some (.mk v s.top)⟩

/-- `Stack::pop`: `take` the top; if absent return `none`, else the new
top is the detached node's `next` and its value is returned. -/
def pop (s : Stack α) : Option α × Stack α :=
  match s.top with
  | none => (none, ⟨none⟩)
  | some (.mk v next) => (some v, ⟨next⟩)

/-- All values currently on the stack, top first. -/
def toList (s : Stack α) : List α :=
  match s.top with
  | none => []
  | some n => n.toList

/-- Push a whole list of values in order. -/
def pushAll (s : Stack α) (vs : List α) : Stack α :=
  vs.foldl push s

/-- Recursive worker for `drain`, walking the node chain. -/
def drainNode : StackNode α → List α
  | .mk v next => v :: (match next with | none => [] | some n => drainNode n)

/-- The iterator's behaviour: the sequence of values produced by popping
until the stack is exhausted (see `drain_eq_pop` for the equation tying
this to `pop`). -/
def drain (s : Stack α) : List α :=
  match s.top with
  | none => []
  | some n => drainNode n

end Stack

/-! From here on: theorems only. -/

namespace BinaryTree

variable {α : Type}

/-- Induction principle for the nested inductive `BinaryTree`. -/
theorem ind {motive : BinaryTree α → Prop}
    (h : ∀ v l r, (∀ c ∈ l, motive c) → (∀ c ∈ r, motive c) → motive (.mk v l r)) :
    ∀ t, motive t
  | .mk v none none => h v none none (by simp) (by simp)
  | .mk v none (some rc) => h v none (some rc) (by simp) (by simpa using ind h rc)
  | .mk v (some lc) none => h v (some lc) none (by simpa using ind h lc) (by simp)
  | .mk v (some lc) (some rc) =>
      h v (some lc) (some rc) (by simpa using ind h lc) (by simpa using ind h rc)

theorem cmp_lt_of [LinearOrder α] {a b : α} (h : a < b) : cmp a b = Ordering.lt := by
  simp [cmp, h]

theorem cmp_gt_of [LinearOrder α] {a b : α} (h : b < a) : cmp a b = Ordering.gt := by
  simp [cmp, not_lt_of_gt h, h]

theorem cmp_eq_of [LinearOrder α] {a b : α} (h : a = b) : cmp a b = Ordering.eq := by
  subst h
  simp [cmp]

theorem cmp_eq_lt_iff [LinearOrder α] {a b : α} : cmp a b = Ordering.lt ↔ a < b := by
  rcases lt_trichotomy a b with h | h | h
  · simp [cmp_lt_of h, h]
  · subst h
    simp [cmp_eq_of rfl]
  · simp [cmp_gt_of h, not_lt_of_gt h]

theorem cmp_eq_gt_iff [LinearOrder α] {a b : α} : cmp a b = Ordering.gt ↔ b < a := by
  rcases lt_trichotomy a b with h | h | h
  · simp [cmp_lt_of h, not_lt_of_gt h]
  · subst h
    simp [cmp_eq_of rfl]
  · simp [cmp_gt_of h, h]

theorem cmp_eq_eq_iff [LinearOrder α] {a b : α} : cmp a b = Ordering.eq ↔ a = b := by
  rcases lt_trichotomy a b with h | h | h
  · simp [cmp_lt_of h, ne_of_lt h]
  · subst h
    simp [cmp_eq_of rfl]
  · simp [cmp_gt_of h, (ne_of_lt h).symm]

/-! Simp lemmas pushing the measures and predicates through `mk` and the
optional-field helpers. -/

@[simp] theorem val_mk (v : Option α) (l r : Option (BinaryTree α)) :
    val (.mk v l r) = v := rfl

@[simp] theorem left_mk (v : Option α) (l r : Option (BinaryTree α)) :
    left (.mk v l r) = l := rfl

@[simp] theorem right_mk (v : Option α) (l r : Option (BinaryTree α)) :
    right (.mk v l r) = r := rfl

@[simp] theorem occupiedRoot_mk (v : Option α) (l r : Option (BinaryTree α)) :
    occupiedRoot (.mk v l r) = v.isSome := rfl

@[simp] theorem valList_none : valList (none : Option α) = [] := rfl

@[simp] theorem valList_some (x : α) : valList (some x) = [x] := rfl

@[simp] theorem valCount_none : valCount (none : Option α) = 0 := rfl

@[simp] theorem valCount_some (x : α) : valCount (some x) = 1 := rfl

@[simp] theorem toListO_none : toListO (none : Option (BinaryTree α)) = [] := rfl

@[simp] theorem toListO_some (c : BinaryTree α) : toListO (some c) = toList c := rfl

@[simp] theorem sizeO_none : sizeO (none : Option (BinaryTree α)) = 0 := rfl

@[simp] theorem sizeO_some (c : BinaryTree α) : sizeO (some c) = size c := rfl

@[simp] theorem allV_none (p : α → Bool) : allV p none = true := rfl

@[simp] theorem allV_some (p : α → Bool) (x : α) : allV p (some x) = p x := rfl

@[simp] theorem allBO_none (p : α → Bool) : allBO p (none : Option (BinaryTree α)) = true := rfl

@[simp] theorem allBO_some (p : α → Bool) (c : BinaryTree α) :
    allBO p (some c) = allB p c := rfl

@[simp] theorem wfO_none : wfO (none : Option (BinaryTree α)) = true := rfl

@[simp] theorem wfO_some (c : BinaryTree α) :
    wfO (some c) = (occupiedRoot c && wfChildren c) := rfl

@[simp] theorem nhO_none : nhO (none : Option (BinaryTree α)) = true := rfl

@[simp] theorem nhO_some (c : BinaryTree α) : nhO (some c) = noHollowNode c := rfl

@[simp] theorem ordO_none [LinearOrder α] : ordO (none : Option (BinaryTree α)) = true := rfl

@[simp] theorem ordO_some [LinearOrder α] (c : BinaryTree α) :
    ordO (some c) = orderedB c := rfl

@[simp] theorem bndL_node [LinearOrder α] (v : Option α) :
    bndL v (none : Option (BinaryTree α)) = true := by
  rcases v with _ | x <;> rfl

@[simp] theorem bndL_some_some [LinearOrder α] (x : α) (c : BinaryTree α) :
    bndL (some x) (some c) = allB (fun y => decide (y < x)) c := rfl

@[simp] theorem bndL_none_some [LinearOrder α] (c : BinaryTree α) :
    bndL (none : Option α) (some c) = true := rfl

@[simp] theorem bndR_node [LinearOrder α] (v : Option α) :
    bndR v (none : Option (BinaryTree α)) = true := by
  rcases v with _ | x <;> rfl

@[simp] theorem bndR_some_some [LinearOrder α] (x : α) (c : BinaryTree α) :
    bndR (some x) (some c) = allB (fun y => decide (x < y)) c := rfl

@[simp] theorem bndR_none_some [LinearOrder α] (c : BinaryTree α) :
    bndR (none : Option α) (some c) = true := rfl

@[simp] theorem toList_mk (v : Option α) (l r : Option (BinaryTree α)) :
    toList (.mk v l r) = toListO l ++ valList v ++ toListO r := by
  rcases v with _ | x <;> rcases l with _ | lc <;> rcases r with _ | rc <;> rfl

@[simp] theorem size_mk (v : Option α) (l r : Option (BinaryTree α)) :
    size (.mk v l r) = valCount v + sizeO l + sizeO r := by
  rcases v with _ | x <;> rcases l with _ | lc <;> rcases r with _ | rc <;> rfl

@[simp] theorem allB_mk (p : α → Bool) (v : Option α) (l r : Option (BinaryTree α)) :
    allB p (.mk v l r) = (allV p v && allBO p l && allBO p r) := by
  rcases v with _ | x <;> rcases l with _ | lc <;> rcases r with _ | rc <;> rfl

@[simp] theorem wfChildren_mk (v : Option α) (l r : Option (BinaryTree α)) :
    wfChildren (.mk v l r) = (wfO l && wfO r) := by
  rcases v with _ | x <;> rcases l with _ | lc <;> rcases r with _ | rc <;> rfl

@[simp] theorem noHollowNode_mk (v : Option α) (l r : Option (BinaryTree α)) :
    noHollowNode (.mk v l r) = ((v.isSome || (l.isNone && r.isNone)) && nhO l && nhO r) := by
  rcases v with _ | x <;> rcases l with _ | lc <;> rcases r with _ | rc <;> rfl

@[simp] theorem orderedB_mk [LinearOrder α] (v : Option α) (l r : Option (BinaryTree α)) :
    orderedB (.mk v l r) = ((ordO l && bndL v l) && (ordO r && bndR v r)) := by
  rcases v with _ | x <;> rcases l with _ | lc <;> rcases r with _ | rc <;> rfl

@[simp] theorem wf_mk (v : Option α) (l r : Option (BinaryTree α)) :
    wf (.mk v l r) = ((wfO l && wfO r) && (v.isSome || (l.isNone && r.isNone))) := by
  simp [wf]

/-- `prune` acts independently on the two child slots, dropping exactly
the children whose `val` is absent. -/
theorem prune_mk (v : Option α) (l r : Option (BinaryTree α)) :
    prune (.mk v l r) = .mk v (pruneChildSpec l) (pruneChildSpec r) := by
  rcases l with _ | ⟨_ | x, ll, lr⟩ <;> rcases r with _ | ⟨_ | y, rl, rr⟩ <;>
    simp [prune, pruneChildSpec, val]

theorem pruneChildSpec_of_occupied {l : Option (BinaryTree α)}
    (hl : ∀ c ∈ l, occupiedRoot c = true) : pruneChildSpec l = l := by
  rcases l with _ | ⟨lv, ll, lr⟩
  · rfl
  · rcases lv with _ | x <;> simp_all [pruneChildSpec, occupiedRoot, val]

/-- On a node whose present children are occupied, `prune` changes
nothing. -/
theorem prune_eq_self {v : Option α} {l r : Option (BinaryTree α)}
    (hl : ∀ c ∈ l, occupiedRoot c = true) (hr : ∀ c ∈ r, occupiedRoot c = true) :
    prune (.mk v l r) = .mk v l r := by
  rw [prune_mk, pruneChildSpec_of_occupied hl, pruneChildSpec_of_occupied hr]

theorem pruneChildSpec_some {c : BinaryTree α} :
    pruneChildSpec (some c) = if occupiedRoot c then some c else none := by
  rcases c with ⟨_ | x, cl, cr⟩ <;> simp [pruneChildSpec, occupiedRoot, val]

/-! Unfolding equations for the recursive operations, stated per case so
they can be used as rewrite rules. -/

theorem insert_unfold_none [LinearOrder α] (l r : Option (BinaryTree α)) (x : α) :
    insert (.mk none l r) x = (.ok x, .mk (some x) l r) := by
  rcases l with _ | lc <;> rcases r with _ | rc <;> rfl

theorem insert_unfold_eq [LinearOrder α] {x w : α} (h : cmp x w = Ordering.eq)
    (l r : Option (BinaryTree α)) :
    insert (.mk (some w) l r) x = (.error w, .mk (some w) l r) := by
  rcases l with _ | lc <;> rcases r with _ | rc <;> simp [insert, h]

theorem insert_unfold_lt_none [LinearOrder α] {x w : α} (h : cmp x w = Ordering.lt)
    (r : Option (BinaryTree α)) :
    insert (.mk (some w) none r) x =
      (.ok x, .mk (some w) (some (.mk (some x) none none)) r) := by
  rcases r with _ | rc <;> simp [insert, h]

theorem insert_unfold_lt_some [LinearOrder α] {x w : α} (h : cmp x w = Ordering.lt)
    (c : BinaryTree α) (r : Option (BinaryTree α)) :
    insert (.mk (some w) (some c) r) x =
      ((match (insert c x).1 with
        | .error e => (.error e : Except α α)
        | .ok _ => .ok x),
       .mk (some w) (some (insert c x).2) r) := by
  rcases hic : insert c x with ⟨res, c2⟩
  rcases r with _ | rc <;> rcases res with e2 | z <;> simp [insert, h, hic]

theorem insert_unfold_gt_none [LinearOrder α] {x w : α} (h : cmp x w = Ordering.gt)
    (l : Option (BinaryTree α)) :
    insert (.mk (some w) l none) x =
      (.ok x, .mk (some w) l (some (.mk (some x) none none))) := by
  rcases l with _ | lc <;> simp [insert, h]

theorem insert_unfold_gt_some [LinearOrder α] {x w : α} (h : cmp x w = Ordering.gt)
    (l : Option (BinaryTree α)) (c : BinaryTree α) :
    insert (.mk (some w) l (some c)) x =
      ((match (insert c x).1 with
        | .error e => (.error e : Except α α)
        | .ok _ => .ok x),
       .mk (some w) l (some (insert c x).2)) := by
  rcases hic : insert c x with ⟨res, c2⟩
  rcases l with _ | lc <;> rcases res with e2 | z <;> simp [insert, h, hic]

theorem collapse_unfold_none (v : Option α) (l : Option (BinaryTree α)) :
    collapse_rightmost (.mk v l none) = (v, prune (.mk none l none)) := by
  rcases l with _ | lc <;> rfl

theorem collapse_unfold_some (v : Option α) (l : Option (BinaryTree α)) (c : BinaryTree α) :
    collapse_rightmost (.mk v l (some c)) =
      ((collapse_rightmost c).1, prune (.mk v l (some (collapse_rightmost c).2))) := by
  rcases hcc : collapse_rightmost c with ⟨res, c2⟩
  rcases l with _ | lc <;> simp [collapse_rightmost, hcc]

theorem remove_unfold_none [LinearOrder α] (l r : Option (BinaryTree α)) (x : α) :
    remove (.mk none l r) x = (.error x, .mk none l r) := by
  rcases l with _ | lc <;> rcases r with _ | rc <;> rfl

theorem remove_unfold_lt_none [LinearOrder α] {x w : α} (h : cmp x w = Ordering.lt)
    (r : Option (BinaryTree α)) :
    remove (.mk (some w) none r) x = (.error x, prune (.mk (some w) none r)) := by
  rcases r with _ | rc <;> simp [remove, h]

theorem remove_unfold_lt_some [LinearOrder α] {x w : α} (h : cmp x w = Ordering.lt)
    (c : BinaryTree α) (r : Option (BinaryTree α)) :
    remove (.mk (some w) (some c) r) x =
      ((remove c x).1, prune (.mk (some w) (some (remove c x).2) r)) := by
  rcases hrc : remove c x with ⟨res, c2⟩
  rcases r with _ | rc <;> simp [remove, h, hrc]

theorem remove_unfold_gt_none [LinearOrder α] {x w : α} (h : cmp x w = Ordering.gt)
    (l : Option (BinaryTree α)) :
    remove (.mk (some w) l none) x = (.error x, prune (.mk (some w) l none)) := by
  rcases l with _ | lc <;> simp [remove, h]

theorem remove_unfold_gt_some [LinearOrder α] {x w : α} (h : cmp x w = Ordering.gt)
    (l : Option (BinaryTree α)) (c : BinaryTree α) :
    remove (.mk (some w) l (some c)) x =
      ((remove c x).1, prune (.mk (some w) l (some (remove c x).2))) := by
  rcases hrc : remove c x with ⟨res, c2⟩
  rcases l with _ | lc <;> simp [remove, h, hrc]

theorem remove_unfold_eq_nn [LinearOrder α] {x w : α} (h : cmp x w = Ordering.eq) :
    remove (.mk (some w) none none) x = (.ok w, prune (.mk none none none)) := by
  simp [remove, h]

theorem remove_unfold_eq_nr [LinearOrder α] {x w : α} (h : cmp x w = Ordering.eq)
    (c : BinaryTree α) :
    remove (.mk (some w) none (some c)) x = (.ok w, prune c) := by
  simp [remove, h]

theorem remove_unfold_eq_ln [LinearOrder α] {x w : α} (h : cmp x w = Ordering.eq)
    (c : BinaryTree α) :
    remove (.mk (some w) (some c) none) x = (.ok w, prune c) := by
  simp [remove, h]

theorem remove_unfold_eq_lr [LinearOrder α] {x w : α} (h : cmp x w = Ordering.eq)
    (c rt : BinaryTree α) :
    remove (.mk (some w) (some c) (some rt)) x =
      (.ok w,
       prune (.mk (collapse_rightmost c).1 (some (collapse_rightmost c).2) (some rt))) := by
  rcases hcc : collapse_rightmost c with ⟨res, c2⟩
  simp [remove, h, hcc]

theorem allB_eq_all (p : α → Bool) :
    ∀ t : BinaryTree α, allB p t = (toList t).all p := by
  intro t
  induction t using ind with
  | h v l r ihl ihr =>
    rcases v with _ | w <;> rcases l with _ | lc <;> rcases r with _ | rc <;>
      simp_all [List.all_append, Bool.and_assoc, Bool.and_comm, Bool.and_left_comm]

theorem allB_iff_toList (p : α → Bool) (t : BinaryTree α) :
    allB p t = true ↔ ∀ x ∈ toList t, p x = true := by
  rw [allB_eq_all]
  exact List.all_eq_true

/-- A failed insert mutates nothing, at any node of any tree. -/
theorem insert_error_snd [LinearOrder α] :
    ∀ (t : BinaryTree α) (x e : α), (insert t x).1 = .error e → (insert t x).2 = t := by
  intro t
  induction t using ind with
  | h v l r ihl ihr =>
    intro x e
    rcases v with _ | w
    · rw [insert_unfold_none]
      simp
    · rcases hc : cmp x w with _ | _ | _
      · rcases l with _ | lc
        · rw [insert_unfold_lt_none hc]
          simp
        · rw [insert_unfold_lt_some hc]
          rcases hil : insert lc x with ⟨res, c2⟩
          have h2 := ihl lc (by simp) x
          rw [hil] at h2
          rcases res with e2 | z <;> simp_all
      · rw [insert_unfold_eq hc]
        simp
      · rcases r with _ | rc
        · rw [insert_unfold_gt_none hc]
          simp
        · rw [insert_unfold_gt_some hc]
          rcases hir : insert rc x with ⟨res, c2⟩
          have h2 := ihr rc (by simp) x
          rw [hir] at h2
          rcases res with e2 | z <;> simp_all

/-- After `insert t x`, the root is always occupied. -/
theorem insert_occupiedRoot [LinearOrder α] (t : BinaryTree α) (x : α) :
    occupiedRoot (insert t x).2 = true := by
  rcases t with ⟨_ | w, l, r⟩
  · rw [insert_unfold_none]
    simp
  · rcases hc : cmp x w with _ | _ | _
    · rcases l with _ | lc
      · rw [insert_unfold_lt_none hc]
        simp
      · rw [insert_unfold_lt_some hc]
        simp
    · rw [insert_unfold_eq hc]
      simp
    · rcases r with _ | rc
      · rw [insert_unfold_gt_none hc]
        simp
      · rw [insert_unfold_gt_some hc]
        simp

/-- The values after an insert are the old values plus the inserted one
(as a set; a failed insert hits a node already holding `x`). -/
theorem toList_insert_mem [LinearOrder α] :
    ∀ (t : BinaryTree α) (x y : α), (y ∈ toList (insert t x).2 ↔ y ∈ toList t ∨ y = x) := by
  intro t
  induction t using ind with
  | h v l r ihl ihr =>
    intro x y
    rcases v with _ | w
    · rw [insert_unfold_none]
      simp
      tauto
    · rcases hc : cmp x w with _ | _ | _
      · rcases l with _ | lc
        · rw [insert_unfold_lt_none hc]
          simp
          tauto
        · rw [insert_unfold_lt_some hc]
          have hm := ihl lc (by simp) x y
          simp only [toList_mk, toListO_some, List.mem_append] at hm ⊢
          tauto
      · have hx : x = w := cmp_eq_eq_iff.mp hc
        subst hx
        rw [insert_unfold_eq hc]
        simp
        tauto
      · rcases r with _ | rc
        · rw [insert_unfold_gt_none hc]
          simp
          tauto
        · rw [insert_unfold_gt_some hc]
          have hm := ihr rc (by simp) x y
          simp only [toList_mk, toListO_some, List.mem_append] at hm ⊢
          tauto

theorem wf_child {c : BinaryTree α} (h1 : occupiedRoot c = true) (h2 : wfChildren c = true) :
    wf c = true := by
  simp [wf, h1, h2]

theorem wf_node_parts {v : Option α} {l r : Option (BinaryTree α)}
    (h : wf (.mk v l r) = true) : wfO l = true ∧ wfO r = true := by
  simp at h
  exact h.1

theorem wf_none_children {l r : Option (BinaryTree α)}
    (h : wf (.mk (none : Option α) l r) = true) : l = none ∧ r = none := by
  simp [Option.isNone_iff_eq_none] at h
  exact h.2

theorem wf_of_wfO_some {c : BinaryTree α} (h : wfO (some c) = true) : wf c = true := by
  simp at h
  exact wf_child h.1 h.2

/-- `insert` preserves the structural invariant. -/
theorem wf_insert [LinearOrder α] :
    ∀ (t : BinaryTree α) (x : α), wf t = true → wf (insert t x).2 = true := by
  intro t
  induction t using ind with
  | h v l r ihl ihr =>
    intro x hwf
    rcases v with _ | w
    · obtain ⟨hl, hr⟩ := wf_none_children hwf
      subst hl
      subst hr
      rw [insert_unfold_none]
      simp
    · obtain ⟨hwl, hwr⟩ := wf_node_parts hwf
      rcases hc : cmp x w with _ | _ | _
      · rcases l with _ | lc
        · rw [insert_unfold_lt_none hc]
          simp_all [wfChildren]
        · rw [insert_unfold_lt_some hc]
          have h2 := ihl lc (by simp) x (wf_of_wfO_some hwl)
          have h3 := insert_occupiedRoot lc x
          simp_all [wf]
      · rw [insert_unfold_eq hc]
        exact hwf
      · rcases r with _ | rc
        · rw [insert_unfold_gt_none hc]
          simp_all [wfChildren]
        · rw [insert_unfold_gt_some hc]
          have h2 := ihr rc (by simp) x (wf_of_wfO_some hwr)
          have h3 := insert_occupiedRoot rc x
          simp_all [wf]

/-- `insert` preserves any bound satisfied by the tree and the new
value. -/
theorem allB_insert [LinearOrder α] :
    ∀ (t : BinaryTree α) (p : α → Bool) (x : α), allB p t = true → p x = true →
      allB p (insert t x).2 = true := by
  intro t
  induction t using ind with
  | h v l r ihl ihr =>
    intro p x hall hpx
    rcases v with _ | w
    · rw [insert_unfold_none]
      simp_all
    · rcases hc : cmp x w with _ | _ | _
      · rcases l with _ | lc
        · rw [insert_unfold_lt_none hc]
          simp_all [allB]
        · rw [insert_unfold_lt_some hc]
          have h2 := ihl lc (by simp) p x
          simp_all
      · rw [insert_unfold_eq hc]
        exact hall
      · rcases r with _ | rc
        · rw [insert_unfold_gt_none hc]
          simp_all [allB]
        · rw [insert_unfold_gt_some hc]
          have h2 := ihr rc (by simp) p x
          simp_all

/-- `insert` preserves the BST ordering invariant on well-formed trees. -/
theorem orderedB_insert [LinearOrder α] :
    ∀ (t : BinaryTree α) (x : α), wf t = true → orderedB t = true →
      orderedB (insert t x).2 = true := by
  intro t
  induction t using ind with
  | h v l r ihl ihr =>
    intro x hwf hord
    rcases v with _ | w
    · obtain ⟨hl, hr⟩ := wf_none_children hwf
      subst hl
      subst hr
      rw [insert_unfold_none]
      simp
    · obtain ⟨hwl, hwr⟩ := wf_node_parts hwf
      simp only [orderedB_mk, Bool.and_eq_true] at hord
      obtain ⟨⟨hordl, hbl⟩, hordr, hbr⟩ := hord
      rcases hc : cmp x w with _ | _ | _
      · have hx : x < w := cmp_eq_lt_iff.mp hc
        rcases l with _ | lc
        · rw [insert_unfold_lt_none hc]
          simp_all [allB]
        · rw [insert_unfold_lt_some hc]
          have h2 := ihl lc (by simp) x (wf_of_wfO_some hwl) (by simpa using hordl)
          have h3 := allB_insert lc (fun y => decide (y < w)) x (by simpa using hbl)
            (by simpa using hx)
          simp_all
      · rw [insert_unfold_eq hc]
        simp_all
      · have hx : w < x := cmp_eq_gt_iff.mp hc
        rcases r with _ | rc
        · rw [insert_unfold_gt_none hc]
          simp_all [allB]
        · rw [insert_unfold_gt_some hc]
          have h2 := ihr rc (by simp) x (wf_of_wfO_some hwr) (by simpa using hordr)
          have h3 := allB_insert rc (fun y => decide (w < y)) x (by simpa using hbr)
            (by simpa using hx)
          simp_all

/-- On well-formed ordered trees, the in-order traversal is strictly
sorted. -/
theorem sorted_toList [LinearOrder α] :
    ∀ t : BinaryTree α, wf t = true → orderedB t = true →
      List.Sorted (fun a b => a < b) (toList t) := by
  intro t
  induction t using ind with
  | h v l r ihl ihr =>
    intro hwf hord
    rcases v with _ | w
    · obtain ⟨hl, hr⟩ := wf_none_children hwf
      subst hl
      subst hr
      simp
    · obtain ⟨hwl, hwr⟩ := wf_node_parts hwf
      simp only [orderedB_mk, Bool.and_eq_true] at hord
      obtain ⟨⟨hordl, hbl⟩, hordr, hbr⟩ := hord
      have hsl : List.Sorted (fun a b => a < b) (toListO l) := by
        rcases l with _ | lc
        · simp
        · exact ihl lc (by simp) (wf_of_wfO_some hwl) (by simpa using hordl)
      have hsr : List.Sorted (fun a b => a < b) (toListO r) := by
        rcases r with _ | rc
        · simp
        · exact ihr rc (by simp) (wf_of_wfO_some hwr) (by simpa using hordr)
      have hblm : ∀ y ∈ toListO l, y < w := by
        rcases l with _ | lc
        · simp
        · intro y hy
          have := (allB_iff_toList (fun y => decide (y < w)) lc).mp (by simpa using hbl) y
            (by simpa using hy)
          simpa using this
      have hbrm : ∀ y ∈ toListO r, w < y := by
        rcases r with _ | rc
        · simp
        · intro y hy
          have := (allB_iff_toList (fun y => decide (w < y)) rc).mp (by simpa using hbr) y
            (by simpa using hy)
          simpa using this
      simp only [toList_mk, valList_some]
      rw [List.append_assoc, List.singleton_append]
      refine List.pairwise_append.mpr ⟨hsl, ?_, ?_⟩
      · exact List.pairwise_cons.mpr ⟨hbrm, hsr⟩
      · intro a ha b hb
        rcases List.mem_cons.mp hb with hb | hb
        · subst hb
          exact hblm a ha
        · exact lt_trans (hblm a ha) (hbrm b hb)

/-- On well-formed ordered trees, `insert` fails (returning the stored
value, and leaving the tree unchanged) exactly on the values already
present, and succeeds on the values not present. -/
theorem insert_result [LinearOrder α] :
    ∀ (t : BinaryTree α) (x : α), wf t = true → orderedB t = true →
      (x ∈ toList t → ((insert t x).1 = .error x ∧ (insert t x).2 = t)) ∧
      (x ∉ toList t → (insert t x).1 = .ok x) := by
  intro t
  induction t using ind with
  | h v l r ihl ihr =>
    intro x hwf hord
    rcases v with _ | w
    · obtain ⟨hl, hr⟩ := wf_none_children hwf
      subst hl
      subst hr
      rw [insert_unfold_none]
      simp
    · obtain ⟨hwl, hwr⟩ := wf_node_parts hwf
      simp only [orderedB_mk, Bool.and_eq_true] at hord
      obtain ⟨⟨hordl, hbl⟩, hordr, hbr⟩ := hord
      rcases hc : cmp x w with _ | _ | _
      · have hx : x < w := cmp_eq_lt_iff.mp hc
        have hxr : x ∉ toListO r := by
          rcases r with _ | rc
          · simp
          · intro hy
            have := (allB_iff_toList (fun y => decide (w < y)) rc).mp (by simpa using hbr) x
              (by simpa using hy)
            simp at this
            exact absurd (lt_trans hx this) (lt_irrefl x)
        rcases l with _ | lc
        · rw [insert_unfold_lt_none hc]
          constructor
          · intro hmem
            simp at hmem
            rcases hmem with h1 | h1
            · exact absurd h1 (ne_of_lt hx)
            · exact absurd (by simpa using h1) hxr
          · intro _
            simp
        · rw [insert_unfold_lt_some hc]
          have ih := ihl lc (by simp) x (wf_of_wfO_some hwl) (by simpa using hordl)
          constructor
          · intro hmem
            have hmlc : x ∈ toList lc := by
              simp only [toList_mk, toListO_some, valList_some, List.mem_append] at hmem
              rcases hmem with (h1 | h1) | h1
              · exact h1
              · exact absurd (by simpa using h1) (ne_of_lt hx)
              · exact absurd (by simpa using h1) hxr
            obtain ⟨he, hsnd⟩ := ih.1 hmlc
            rw [he, hsnd]
            simp
          · intro hmem
            have hmlc : x ∉ toList lc := by
              intro hy
              apply hmem
              simp only [toList_mk, toListO_some, valList_some, List.mem_append]
              tauto
            have hok := ih.2 hmlc
            rw [hok]
      · have hx : x = w := cmp_eq_eq_iff.mp hc
        subst hx
        rw [insert_unfold_eq hc]
        constructor
        · intro _
          simp
        · intro hmem
          exact absurd (by simp) hmem
      · have hx : w < x := cmp_eq_gt_iff.mp hc
        have hxl : x ∉ toListO l := by
          rcases l with _ | lc
          · simp
          · intro hy
            have := (allB_iff_toList (fun y => decide (y < w)) lc).mp (by simpa using hbl) x
              (by simpa using hy)
            simp at this
            exact absurd (lt_trans hx this) (lt_irrefl w)
        rcases r with _ | rc
        · rw [insert_unfold_gt_none hc]
          constructor
          · intro hmem
            simp at hmem
            rcases hmem with h1 | h1
            · exact absurd (by simpa using h1) hxl
            · exact absurd h1.symm (ne_of_lt hx)
          · intro _
            simp
        · rw [insert_unfold_gt_some hc]
          have ih := ihr rc (by simp) x (wf_of_wfO_some hwr) (by simpa using hordr)
          constructor
          · intro hmem
            have hmrc : x ∈ toList rc := by
              simp only [toList_mk, toListO_some, valList_some, List.mem_append] at hmem
              rcases hmem with (h1 | h1) | h1
              · exact absurd (by simpa using h1) hxl
              · exact absurd (Eq.symm (by simpa using h1)) (ne_of_lt hx)
              · exact h1
            obtain ⟨he, hsnd⟩ := ih.1 hmrc
            rw [he, hsnd]
            simp
          · intro hmem
            have hmrc : x ∉ toList rc := by
              intro hy
              apply hmem
              simp only [toList_mk, toListO_some, valList_some, List.mem_append]
              tauto
            have hok := ih.2 hmrc
            rw [hok]

theorem wfO_parts {l : Option (BinaryTree α)} (h : wfO l = true) :
    (∀ c ∈ l, occupiedRoot c = true) ∧ (∀ c ∈ l, wfChildren c = true) := by
  rcases l with _ | lc <;> simp_all

/-- `prune` fixes any node whose present children are occupied. -/
theorem prune_of_wfChildren {c : BinaryTree α} (h : wfChildren c = true) : prune c = c := by
  rcases c with ⟨cv, cl, cr⟩
  simp only [wfChildren_mk, Bool.and_eq_true] at h
  rw [prune_mk, pruneChildSpec_of_occupied (wfO_parts h.1).1,
    pruneChildSpec_of_occupied (wfO_parts h.2).1]

/-- `collapse_rightmost` on an occupied well-formed tree extracts a value
and leaves all children well formed (the root may lose its value). -/
theorem collapse_wf : ∀ t : BinaryTree α, occupiedRoot t = true → wfChildren t = true →
    (collapse_rightmost t).1.isSome = true ∧ wfChildren (collapse_rightmost t).2 = true := by
  intro t
  induction t using ind with
  | h v l r ihl ihr =>
    intro hocc hwfc
    rcases v with _ | w
    · simp at hocc
    · simp only [wfChildren_mk, Bool.and_eq_true] at hwfc
      obtain ⟨hwl, hwr⟩ := hwfc
      rcases r with _ | rc
      · rw [collapse_unfold_none, prune_mk, pruneChildSpec_of_occupied (wfO_parts hwl).1]
        refine ⟨by simp, ?_⟩
        simp [hwl, pruneChildSpec]
      · have hparts := wfO_parts hwr
        have ih := ihr rc (by simp) (hparts.1 rc (by simp)) (hparts.2 rc (by simp))
        rw [collapse_unfold_some, prune_mk, pruneChildSpec_of_occupied (wfO_parts hwl).1,
          pruneChildSpec_some]
        refine ⟨ih.1, ?_⟩
        rcases hoc : occupiedRoot (collapse_rightmost rc).2 with _ | _
        · simp [hwl]
        · simp [hwl, hoc, ih.2]

/-- `remove` preserves the structural invariant. -/
theorem wf_remove [LinearOrder α] :
    ∀ (t : BinaryTree α) (x : α), wf t = true → wf (remove t x).2 = true := by
  intro t
  induction t using ind with
  | h v l r ihl ihr =>
    intro x hwf
    rcases v with _ | w
    · obtain ⟨hl, hr⟩ := wf_none_children hwf
      subst hl
      subst hr
      rw [remove_unfold_none]
      exact hwf
    · obtain ⟨hwl, hwr⟩ := wf_node_parts hwf
      rcases hc : cmp x w with _ | _ | _
      · rcases l with _ | lc
        · rw [remove_unfold_lt_none hc, prune_mk,
            pruneChildSpec_of_occupied (wfO_parts hwr).1]
          simp [hwr, pruneChildSpec]
        · rw [remove_unfold_lt_some hc]
          have ih := ihl lc (by simp) x (wf_of_wfO_some hwl)
          rw [prune_mk, pruneChildSpec_of_occupied (wfO_parts hwr).1, pruneChildSpec_some]
          rcases hoc : occupiedRoot (remove lc x).2 with _ | _
          · simp [hwr]
          · have hwfc2 : wfChildren (remove lc x).2 = true := by
              have := ih
              simp [wf, Bool.and_eq_true] at this
              exact this.1
            simp [hwr, hoc, hwfc2]
      · rcases l with _ | lc <;> rcases r with _ | rc
        · rw [remove_unfold_eq_nn hc, prune_mk]
          simp [pruneChildSpec]
        · rw [remove_unfold_eq_nr hc]
          have hparts := wfO_parts hwr
          rw [prune_of_wfChildren (hparts.2 rc (by simp))]
          exact wf_child (hparts.1 rc (by simp)) (hparts.2 rc (by simp))
        · rw [remove_unfold_eq_ln hc]
          have hparts := wfO_parts hwl
          rw [prune_of_wfChildren (hparts.2 lc (by simp))]
          exact wf_child (hparts.1 lc (by simp)) (hparts.2 lc (by simp))
        · rw [remove_unfold_eq_lr hc]
          have hparts := wfO_parts hwl
          have hco := collapse_wf lc (hparts.1 lc (by simp)) (hparts.2 lc (by simp))
          rw [prune_mk, pruneChildSpec_some, pruneChildSpec_of_occupied (wfO_parts hwr).1]
          rcases hoc : occupiedRoot (collapse_rightmost lc).2 with _ | _
          · simp [hwr, hco.1]
          · simp [hwr, hoc, hco.1, hco.2]
      · rcases r with _ | rc
        · rw [remove_unfold_gt_none hc, prune_mk,
            pruneChildSpec_of_occupied (wfO_parts hwl).1]
          simp [hwl, pruneChildSpec]
        · rw [remove_unfold_gt_some hc]
          have ih := ihr rc (by simp) x (wf_of_wfO_some hwr)
          rw [prune_mk, pruneChildSpec_of_occupied (wfO_parts hwl).1, pruneChildSpec_some]
          rcases hoc : occupiedRoot (remove rc x).2 with _ | _
          · simp [hwl]
          · have hwfc2 : wfChildren (remove rc x).2 = true := by
              have := ih
              simp [wf, Bool.and_eq_true] at this
              exact this.1
            simp [hwl, hoc, hwfc2]

/-- The structural invariant rules out hollow nodes everywhere. -/
theorem noHollow_of_wf : ∀ t : BinaryTree α, wf t = true → noHollowNode t = true := by
  intro t
  induction t using ind with
  | h v l r ihl ihr =>
    intro hwf
    obtain ⟨hwl, hwr⟩ := wf_node_parts hwf
    have hnl : nhO l = true := by
      rcases l with _ | lc
      · simp
      · simpa using ihl lc (by simp) (wf_of_wfO_some hwl)
    have hnr : nhO r = true := by
      rcases r with _ | rc
      · simp
      · simpa using ihr rc (by simp) (wf_of_wfO_some hwr)
    rcases v with _ | w
    · obtain ⟨hl, hr⟩ := wf_none_children hwf
      subst hl
      subst hr
      simp
    · simp [hnl, hnr]

/-- A failed remove leaves a well-formed tree unchanged. -/
theorem remove_error_snd [LinearOrder α] :
    ∀ (t : BinaryTree α) (x e : α), wf t = true → (remove t x).1 = .error e →
      (remove t x).2 = t := by
  intro t
  induction t using ind with
  | h v l r ihl ihr =>
    intro x e hwf
    rcases v with _ | w
    · rw [remove_unfold_none]
      intro _
      rfl
    · obtain ⟨hwl, hwr⟩ := wf_node_parts hwf
      rcases hc : cmp x w with _ | _ | _
      · rcases l with _ | lc
        · rw [remove_unfold_lt_none hc]
          intro _
          show prune (.mk (some w) none r) = .mk (some w) none r
          exact prune_eq_self (by simp) (wfO_parts hwr).1
        · rw [remove_unfold_lt_some hc]
          intro herr
          have ih := ihl lc (by simp) x e (wf_of_wfO_some hwl) (by simpa using herr)
          rw [ih]
          show prune (.mk (some w) (some lc) r) = .mk (some w) (some lc) r
          exact prune_eq_self (wfO_parts hwl).1 (wfO_parts hwr).1
      · rcases l with _ | lc <;> rcases r with _ | rc
        · rw [remove_unfold_eq_nn hc]
          simp
        · rw [remove_unfold_eq_nr hc]
          simp
        · rw [remove_unfold_eq_ln hc]
          simp
        · rw [remove_unfold_eq_lr hc]
          simp
      · rcases r with _ | rc
        · rw [remove_unfold_gt_none hc]
          intro _
          show prune (.mk (some w) l none) = .mk (some w) l none
          exact prune_eq_self (wfO_parts hwl).1 (by simp)
        · rw [remove_unfold_gt_some hc]
          intro herr
          have ih := ihr rc (by simp) x e (wf_of_wfO_some hwr) (by simpa using herr)
          rw [ih]
          show prune (.mk (some w) l (some rc)) = .mk (some w) l (some rc)
          exact prune_eq_self (wfO_parts hwl).1 (wfO_parts hwr).1

/-- On well-formed ordered trees, `remove x` succeeds with `.ok x`
exactly when `x` is present, and fails with `.error x` exactly when it is
not. -/
theorem remove_result [LinearOrder α] :
    ∀ (t : BinaryTree α) (x : α), wf t = true → orderedB t = true →
      ((x ∈ toList t ∧ (remove t x).1 = .ok x) ∨
       (x ∉ toList t ∧ (remove t x).1 = .error x)) := by
  intro t
  induction t using ind with
  | h v l r ihl ihr =>
    intro x hwf hord
    rcases v with _ | w
    · obtain ⟨hl, hr⟩ := wf_none_children hwf
      subst hl
      subst hr
      rw [remove_unfold_none]
      right
      simp
    · obtain ⟨hwl, hwr⟩ := wf_node_parts hwf
      simp only [orderedB_mk, Bool.and_eq_true] at hord
      obtain ⟨⟨hordl, hbl⟩, hordr, hbr⟩ := hord
      rcases hc : cmp x w with _ | _ | _
      · have hx : x < w := cmp_eq_lt_iff.mp hc
        have hxr : x ∉ toListO r := by
          rcases r with _ | rc
          · simp
          · intro hy
            have := (allB_iff_toList (fun y => decide (w < y)) rc).mp (by simpa using hbr) x
              (by simpa using hy)
            simp at this
            exact absurd (lt_trans hx this) (lt_irrefl x)
        rcases l with _ | lc
        · rw [remove_unfold_lt_none hc]
          right
          refine ⟨?_, rfl⟩
          intro hmem
          simp at hmem
          rcases hmem with h1 | h1
          · exact absurd h1 (ne_of_lt hx)
          · exact absurd (by simpa using h1) hxr
        · rw [remove_unfold_lt_some hc]
          have ih := ihl lc (by simp) x (wf_of_wfO_some hwl) (by simpa using hordl)
          rcases ih with ⟨hm, hres⟩ | ⟨hm, hres⟩
          · left
            refine ⟨?_, by simpa using hres⟩
            simp only [toList_mk, toListO_some, List.mem_append]
            tauto
          · right
            refine ⟨?_, by simpa using hres⟩
            intro hmem
            simp only [toList_mk, toListO_some, valList_some, List.mem_append] at hmem
            rcases hmem with (h1 | h1) | h1
            · exact hm h1
            · exact absurd (by simpa using h1) (ne_of_lt hx)
            · exact absurd (by simpa using h1) hxr
      · have hx : x = w := cmp_eq_eq_iff.mp hc
        subst hx
        left
        refine ⟨by simp, ?_⟩
        rcases l with _ | lc <;> rcases r with _ | rc
        · rw [remove_unfold_eq_nn hc]
        · rw [remove_unfold_eq_nr hc]
        · rw [remove_unfold_eq_ln hc]
        · rw [remove_unfold_eq_lr hc]
      · have hx : w < x := cmp_eq_gt_iff.mp hc
        have hxl : x ∉ toListO l := by
          rcases l with _ | lc
          · simp
          · intro hy
            have := (allB_iff_toList (fun y => decide (y < w)) lc).mp (by simpa using hbl) x
              (by simpa using hy)
            simp at this
            exact absurd (lt_trans hx this) (lt_irrefl w)
        rcases r with _ | rc
        · rw [remove_unfold_gt_none hc]
          right
          refine ⟨?_, rfl⟩
          intro hmem
          simp at hmem
          rcases hmem with h1 | h1
          · exact absurd (by simpa using h1) hxl
          · exact absurd h1.symm (ne_of_lt hx)
        · rw [remove_unfold_gt_some hc]
          have ih := ihr rc (by simp) x (wf_of_wfO_some hwr) (by simpa using hordr)
          rcases ih with ⟨hm, hres⟩ | ⟨hm, hres⟩
          · left
            refine ⟨?_, by simpa using hres⟩
            simp only [toList_mk, toListO_some, List.mem_append]
            tauto
          · right
            refine ⟨?_, by simpa using hres⟩
            intro hmem
            simp only [toList_mk, toListO_some, valList_some, List.mem_append] at hmem
            rcases hmem with (h1 | h1) | h1
            · exact absurd (by simpa using h1) hxl
            · exact absurd (Eq.symm (by simpa using h1)) (ne_of_lt hx)
            · exact hm h1

/-- The panic-instrumented insert never hits a failing `unwrap`: it
agrees with `insert` on every tree. -/
theorem insertChecked_eq [LinearOrder α] :
    ∀ (t : BinaryTree α) (x : α), insertChecked t x = some (insert t x) := by
  intro t
  induction t using ind with
  | h v l r ihl ihr =>
    intro x
    rcases v with _ | w
    · rcases l with _ | lc <;> rcases r with _ | rc <;>
        simp [insertChecked, insert_unfold_none]
    · rcases hc : cmp x w with _ | _ | _
      · rcases l with _ | lc
        · rw [insert_unfold_lt_none hc]
          rcases r with _ | rc <;> simp [insertChecked, hc]
        · rw [insert_unfold_lt_some hc]
          have ih := ihl lc (by simp) x
          rcases hil : insert lc x with ⟨res, c2⟩
          rw [hil] at ih
          rcases r with _ | rc <;> rcases res with e2 | z <;>
            simp [insertChecked, hc, ih]
      · rw [insert_unfold_eq hc]
        rcases l with _ | lc <;> rcases r with _ | rc <;> simp [insertChecked, hc]
      · rcases r with _ | rc
        · rw [insert_unfold_gt_none hc]
          rcases l with _ | lc <;> simp [insertChecked, hc]
        · rw [insert_unfold_gt_some hc]
          have ih := ihr rc (by simp) x
          rcases hir : insert rc x with ⟨res, c2⟩
          rw [hir] at ih
          rcases l with _ | lc <;> rcases res with e2 | z <;>
            simp [insertChecked, hc, ih]

/-- The panic-instrumented remove never hits a failing `unwrap`: it
agrees with `remove` on every tree. -/
theorem removeChecked_eq [LinearOrder α] :
    ∀ (t : BinaryTree α) (x : α), removeChecked t x = some (remove t x) := by
  intro t
  induction t using ind with
  | h v l r ihl ihr =>
    intro x
    rcases v with _ | w
    · rcases l with _ | lc <;> rcases r with _ | rc <;>
        simp [removeChecked, remove_unfold_none]
    · rcases hc : cmp x w with _ | _ | _
      · rcases l with _ | lc
        · rw [remove_unfold_lt_none hc]
          rcases r with _ | rc <;> simp [removeChecked, hc]
        · rw [remove_unfold_lt_some hc]
          have ih := ihl lc (by simp) x
          rcases hrl : remove lc x with ⟨res, c2⟩
          rw [hrl] at ih
          rcases r with _ | rc <;> simp [removeChecked, hc, ih]
      · rcases l with _ | lc <;> rcases r with _ | rc
        · rw [remove_unfold_eq_nn hc]
          simp [removeChecked, hc]
        · rw [remove_unfold_eq_nr hc]
          simp [removeChecked, hc]
        · rw [remove_unfold_eq_ln hc]
          simp [removeChecked, hc]
        · rw [remove_unfold_eq_lr hc]
          rcases hcc : collapse_rightmost lc with ⟨vO, c2⟩
          simp [removeChecked, hc, hcc]
      · rcases r with _ | rc
        · rw [remove_unfold_gt_none hc]
          rcases l with _ | lc <;> simp [removeChecked, hc]
        · rw [remove_unfold_gt_some hc]
          have ih := ihr rc (by simp) x
          rcases hrr : remove rc x with ⟨res, c2⟩
          rw [hrr] at ih
          rcases l with _ | lc <;> simp [removeChecked, hc, ih]

/-- Folding inserts preserves well-formedness and ordering. -/
theorem insertAll_inv [LinearOrder α] :
    ∀ (vs : List α) (t : BinaryTree α), wf t = true → orderedB t = true →
      wf (insertAll t vs) = true ∧ orderedB (insertAll t vs) = true := by
  intro vs
  induction vs with
  | nil =>
    intro t h1 h2
    exact ⟨h1, h2⟩
  | cons v vs ih =>
    intro t h1 h2
    have h1' := wf_insert t v h1
    have h2' := orderedB_insert t v h1 h2
    simpa [insertAll] using ih (insert t v).2 h1' h2'

/-- The values after folding inserts are the old values plus the
inserted ones. -/
theorem insertAll_mem [LinearOrder α] :
    ∀ (vs : List α) (t : BinaryTree α) (y : α),
      (y ∈ toList (insertAll t vs) ↔ y ∈ toList t ∨ y ∈ vs) := by
  intro vs
  induction vs with
  | nil =>
    intro t y
    simp [insertAll]
  | cons v vs ih =>
    intro t y
    have h1 : insertAll t (v :: vs) = insertAll (insert t v).2 vs := rfl
    rw [h1, ih (insert t v).2 y, toList_insert_mem]
    simp [List.mem_cons]
    tauto

end BinaryTree

namespace Stack

variable {α : Type}

/-- `drain` is exactly the pop-driven iteration: it produces nothing on
an empty stack, and otherwise the popped value followed by draining the
remaining stack. -/
theorem drain_eq_pop (s : Stack α) :
    drain s = match pop s with
      | (none, _) => []
      | (some v, s2) => v :: drain s2 := by
  rcases s with ⟨_ | ⟨v, next⟩⟩
  · rfl
  · cases next <;> rfl

theorem drain_push (s : Stack α) (v : α) : drain (push s v) = v :: drain s := by
  rcases s with ⟨_ | n⟩ <;> rfl

theorem drain_pushAll : ∀ (vs : List α) (s : Stack α),
    drain (pushAll s vs) = vs.reverse ++ drain s := by
  intro vs
  induction vs with
  | nil =>
    intro s
    simp [pushAll]
  | cons v vs ih =>
    intro s
    have h1 : pushAll s (v :: vs) = pushAll (push s v) vs := rfl
    rw [h1, ih, drain_push]
    simp

end Stack

/-! The claim theorems. -/

namespace BinaryTree

variable {α : Type}

/-- Claim C1 (refuted by the code, size conservation): a successful
remove is supposed to decrease the number of occupied nodes by exactly
one, but on the tree built by inserting 5, 3, 1, 8, removing 5 succeeds
and the occupied-node count drops from 4 to 2: the value 1 is lost when
the final prune discards the hollow left node that still owned the
subtree holding 1. -/
theorem claim1_remove_size_loss :
    size sampleTree = 4 ∧ (remove sampleTree 5).1 = .ok 5 ∧
      size (remove sampleTree 5).2 = 2 :=
  ⟨rfl, rfl, rfl⟩

/-- Claim C2 (refuted by the code, two-children removal): removing 5
from the tree {5, 3, 1, 8} (5 at the root with both children) does
promote the in-order predecessor 3 and keeps the right subtree, but the
left subtree afterwards is not "its previous values minus the promoted
maximum": the value 1, which is neither the removed value nor the
promoted maximum, disappears as well. -/
theorem claim2_remove_two_children_loss :
    (remove sampleTree 5).1 = .ok 5 ∧
    val (remove sampleTree 5).2 = some 3 ∧
    right (remove sampleTree 5).2 = right sampleTree ∧
    (1 : Int) ∈ toList sampleTree ∧ (1 : Int) ≠ 3 ∧
    (1 : Int) ∉ toList (remove sampleTree 5).2 :=
  ⟨rfl, rfl, rfl, by decide, by decide, by decide⟩

/-- Claim C3 counterexample: `hollowChild` has an absent value but a
present grandchild (holding 1), so it is not "fully empty"; yet `prune`
on its parent sets the left reference to absent, contradicting the claim
that only fully empty children (no value and no children) are removed. -/
theorem claim3_counterexample :
    val hollowChild = none ∧ left hollowChild = some (.mk (some 1) none none) ∧
    left pruneCounterTree = some hollowChild ∧
    left (prune pruneCounterTree) = none :=
  ⟨rfl, rfl, rfl, rfl⟩

/-- Claim C3 as amended: the pruning step sets a child reference to
absent exactly when the child exists and its value is absent, regardless
of the child's own children (which are discarded with it); an occupied
child is kept unchanged.  `pruneChildSpec` states that rule per slot. -/
theorem claim3_prune_amended (v : Option α) (l r : Option (BinaryTree α)) :
    prune (.mk v l r) = .mk v (pruneChildSpec l) (pruneChildSpec r) :=
  prune_mk v l r

/-- Claim C4 (failure atomicity): on a tree satisfying the structural
invariant, a failed insert and a failed remove leave the tree completely
unchanged. -/
theorem claim4_failure_atomicity [LinearOrder α] (t : BinaryTree α) (v u : α)
    (h : wf t = true) :
    (∀ e, (insert t v).1 = .error e → (insert t v).2 = t) ∧
    (∀ e, (remove t u).1 = .error e → (remove t u).2 = t) :=
  ⟨fun e he => insert_error_snd t v e he,
   fun e he => remove_error_snd t u e h he⟩

/-- Witness for C4 at the tree {3, 1, 5}: inserting the duplicate 3 and
removing the absent 14 both fail and both leave the tree unchanged. -/
theorem claim4_failure_atomicity_witness :
    (insert smallTree 3).2 = smallTree ∧ (remove smallTree 14).2 = smallTree :=
  ⟨(claim4_failure_atomicity smallTree 3 14 (by decide)).1 3 rfl,
   (claim4_failure_atomicity smallTree 3 14 (by decide)).2 14 rfl⟩

/-- Claim C5: on a well-formed ordered tree, `remove v` fails if and
only if `v` is not present; on failure the error carries exactly the
input `v`, and on success the result carries the value stored at the
matched node (equal to `v`). -/
theorem claim5_remove_result [LinearOrder α] (t : BinaryTree α) (v : α)
    (h1 : wf t = true) (h2 : orderedB t = true) :
    (v ∈ toList t ∧ (remove t v).1 = .ok v) ∨
    (v ∉ toList t ∧ (remove t v).1 = .error v) :=
  remove_result t v h1 h2

/-- Witness for C5 at the tree {3, 1, 5} with `v = 3`. -/
theorem claim5_remove_result_witness :
    ((3 : Int) ∈ toList smallTree ∧ (remove smallTree 3).1 = .ok 3) ∨
    ((3 : Int) ∉ toList smallTree ∧ (remove smallTree 3).1 = .error 3) :=
  claim5_remove_result smallTree 3 (by decide) (by decide)

/-- Claim C6: on a well-formed ordered tree, inserting a value not
present succeeds, and inserting a value already present fails, returning
the stored value compared equal to it and leaving the tree unchanged. -/
theorem claim6_insert_duplicate [LinearOrder α] (t : BinaryTree α) (v : α)
    (h1 : wf t = true) (h2 : orderedB t = true) :
    (v ∉ toList t → (insert t v).1 = .ok v) ∧
    (v ∈ toList t → ((insert t v).1 = .error v ∧ (insert t v).2 = t)) := by
  have h := insert_result t v h1 h2
  exact ⟨h.2, h.1⟩

/-- Witness for C6 at the tree {3, 1, 5}: re-inserting 3 fails with the
stored 3 and changes nothing. -/
theorem claim6_insert_duplicate_witness :
    (insert smallTree 3).1 = Except.error 3 ∧ (insert smallTree 3).2 = smallTree :=
  (claim6_insert_duplicate smallTree 3 (by decide) (by decide)).2 (by decide)

/-- Claim C7: any sequence of inserts starting from a new tree yields a
tree satisfying the BST ordering invariant, whose in-order traversal is
strictly increasing with no duplicates and consists exactly of the
inserted values. -/
theorem claim7_insert_sequence_bst [LinearOrder α] (vs : List α) :
    orderedB (insertAll new vs) = true ∧
    List.Sorted (fun a b => a < b) (toList (insertAll new vs)) ∧
    (toList (insertAll new vs)).Nodup ∧
    (∀ y, y ∈ toList (insertAll new vs) ↔ y ∈ vs) := by
  have hinv := insertAll_inv vs new rfl rfl
  have hs := sorted_toList _ hinv.1 hinv.2
  refine ⟨hinv.2, hs, hs.nodup, ?_⟩
  intro y
  have h := insertAll_mem vs new y
  simpa [new] using h

/-- Claim C8 counterexample: `hollowStartTree` has no hollow node in the
claim's literal sense (its empty left leaf has no children), yet after
`remove 5` the resulting tree has a valueless root with a present right
child: a hollow node is observable. -/
theorem claim8_counterexample :
    noHollowNode hollowStartTree = true ∧
    (remove hollowStartTree 5).1 = .ok 5 ∧
    noHollowNode (remove hollowStartTree 5).2 = false :=
  ⟨by decide, rfl, by decide⟩

/-- Claim C8 as amended: on trees satisfying the full pruning invariant
`wf` (every present child reference points to an occupied node, and a
valueless root has no children), any remove — successful or failed —
re-establishes `wf`, and in particular leaves no hollow node observable. -/
theorem claim8_remove_no_hollow [LinearOrder α] (t : BinaryTree α) (v : α)
    (h : wf t = true) :
    wf ((remove t v).2) = true ∧ noHollowNode ((remove t v).2) = true := by
  have h1 := wf_remove t v h
  exact ⟨h1, noHollow_of_wf _ h1⟩

/-- Witness for C8 at the tree {3, 1, 5} with `v = 3`. -/
theorem claim8_remove_no_hollow_witness :
    wf ((remove smallTree 3).2) = true ∧ noHollowNode ((remove smallTree 3).2) = true :=
  claim8_remove_no_hollow smallTree 3 (by decide)

/-- Claim C10: on trees satisfying the no-hollow structural invariant,
`insert` and `remove` never reach a failing `unwrap`: the
panic-instrumented versions (every source `unwrap` modelled as an
`Option` bind) return `some` of exactly the plain result.
(`collapse_rightmost` and `prune` contain no `unwrap` at all.) -/
theorem claim10_no_panic [LinearOrder α] (t : BinaryTree α) (v : α)
    (h : wf t = true) :
    insertChecked t v = some (insert t v) ∧ removeChecked t v = some (remove t v) :=
  ⟨insertChecked_eq t v, removeChecked_eq t v⟩

/-- Witness for C10 at the tree {3, 1, 5} with `v = 2`. -/
theorem claim10_no_panic_witness :
    insertChecked smallTree 2 = some (insert smallTree 2) ∧
    removeChecked smallTree 2 = some (remove smallTree 2) :=
  claim10_no_panic smallTree 2 (by decide)

end BinaryTree

namespace Stack

variable {α : Type}

/-- Claim C9: pop on an empty stack returns absent; after pushing a
finite sequence of values, draining (iteration, which pops repeatedly
until absent) returns exactly those values in last-in-first-out order;
and draining is characterised by `pop`: it stops exactly when `pop`
yields absent. -/
theorem claim9_lifo (vs : List α) :
    pop (new : Stack α) = (none, new) ∧
    drain (pushAll new vs) = vs.reverse ∧
    (∀ s : Stack α, drain s = match pop s with
      | (none, _) => []
      | (some v, s2) => v :: drain s2) := by
  refine ⟨rfl, ?_, drain_eq_pop⟩
  have h0 : drain (new : Stack α) = [] := rfl
  rw [drain_pushAll, h0, List.append_nil]

end Stack

end Algorithms
